import Mathlib

/-! Producer/consumer process manager (`process_manager.c`).

A shallow embedding of `write_int`, `read_int`, `run_basic_demo` and
`run_multiple_pairs`.

* System calls whose result the code branches on (`pipe`, `fork`, `write`,
  `read`, `waitpid`) are inputs of the model: the value each call returns is
  supplied by the caller of the definition.
* Every process is described by the list of observable events it performs, in
  program order.
* `int` is modelled by `Int`; the three additions that can leave the range of a
  32-bit `int` (`start + span`, `start += span`, `sum += val`) are reduced with
  `wrapInt`.  Statements that depend on the absence of overflow say so.
-/

namespace ProcessManager

/-! ## Machine integers -/

/-- Value of `sizeof(int)`: the width of one message in bytes. -/
def sizeofInt : Int := 4

/-- Smallest 32-bit `int`. -/
def INT_MIN : Int := -2147483648

/-- Largest 32-bit `int`. -/
def INT_MAX : Int := 2147483647

/-- Two-complement reduction of a mathematical integer to a 32-bit `int`. -/
def wrapInt (x : Int) : Int := (x + 2147483648) % 4294967296 - 2147483648

/-- Membership in the range of `int`. -/
def InIntRange (x : Int) : Prop := INT_MIN ≤ x ∧ x ≤ INT_MAX

instance (x : Int) : Decidable (InIntRange x) := by
  unfold InIntRange; exact inferInstance

/-! ## Events -/

/-- The two ends of a pipe: `pipe_fd[0]` and `pipe_fd[1]`. -/
inductive PipeEnd
  | rd
  | wr
  deriving DecidableEq

/-- The two kinds of child a supervisor forks. -/
inductive Role
  | producer
  | consumer
  deriving DecidableEq

/-- Observable actions of a process.  The index `p` names the pipe of pair `p`
(`0` for the only pair of `run_basic_demo`). -/
inductive Event
  /-- Call `pipe(pipe_fd)` for pair `p`, returning `ret`. -/
  | pipe (p : Nat) (ret : Int)
  /-- Call `fork()` for the given role of pair `p`, returning `ret`; `start` and
  `span` are the values of the range variables the child inherits. -/
  | fork (p : Nat) (role : Role) (ret : Int) (start span : Int)
  /-- Call `close` on one end of the pipe of pair `p`. -/
  | close (p : Nat) (e : PipeEnd)
  /-- Call `write(fd, &value, sizeof(value))`, returning `n`. -/
  | write (value n : Int)
  /-- Line "Producer: Sent number". -/
  | sentLine (value : Int)
  /-- Call `read(fd, out, sizeof( *out))`, returning `n` with `*out = val`. -/
  | read (n val : Int)
  /-- Line "Consumer: Received ..., running sum: ...". -/
  | recvLine (val sum : Int)
  /-- Line "Consumer: Final sum: ...". -/
  | finalLine (sum : Int)
  /-- Call `_exit(code)`. -/
  | exit (code : Nat)
  /-- Call `waitpid(pid, &status, 0)`. -/
  | waitpid (pid : Int)
  /-- Line "... (PID: w) exited with status shown". -/
  | report (w shown : Int)
  deriving DecidableEq

/-! ## Message helpers -/

/-- Helper `write_int`, given the value `n` returned by `write`: the events performed,
and `some 1` when the helper ends the process with `_exit(1)`. -/
def write_int (value n : Int) : List Event × Option Nat :=
  if n ≠ sizeofInt then ([Event.write value n, Event.exit 1], some 1)
  else ([Event.write value n], none)

/-- Helper `read_int`, given the value `n` returned by `read`. -/
def read_int (n : Int) : Int :=
  if n = 0 then 0
  else if n < 0 then 0
  else if n ≠ sizeofInt then 0
  else 1

/-! ## Producer child -/

/-- The producer's `for` loop: `i` is the loop variable, `cont` the loop
condition, `wr k` the value returned by the `k`-th call of `write`.  The result
is `none` when the fuel runs out; otherwise it is the events of the loop and
`some 1` when `write_int` ended the process.  The increment `i++` is executed
only when the condition held, so it stays in the range of `int`. -/
def sendLoop (cont : Int → Bool) (wr : Nat → Int) :
    Nat → Int → Nat → Option (List Event × Option Nat)
  | 0, _, _ => none
  | fuel + 1, i, k =>
    if cont i then
      match write_int i (wr k) with
      | (ev, some c) => some (ev, some c)
      | (ev, none) =>
        match sendLoop cont wr fuel (i + 1) (k + 1) with
        | none => none
        | some (evs, r) => some (ev ++ Event.sentLine i :: evs, r)
    else some ([], none)

/-- Producer child of `run_multiple_pairs` for pair `p`
(lines 137-145): closes the read end, sends `start .. start + span - 1`, closes
the write end and exits with code 0. -/
def producer_multi (p : Nat) (start span : Int) (wr : Nat → Int) : Option (List Event) :=
  let hi := wrapInt (start + span)
  match sendLoop (fun i => decide (i < hi)) wr ((hi - start).toNat + 1) start 0 with
  | none => none
  | some (evs, some _) => some (Event.close p PipeEnd.rd :: evs)
  | some (evs, none) =>
    some (Event.close p PipeEnd.rd :: evs ++ [Event.close p PipeEnd.wr, Event.exit 0])

/-- Producer child of `run_basic_demo` (lines 49-58): the loop is
`for (i = 1; i <= 5; i++)`. -/
def producer_basic (wr : Nat → Int) : Option (List Event) :=
  match sendLoop (fun i => decide (i ≤ 5)) wr 6 1 0 with
  | none => none
  | some (evs, some _) => some (Event.close 0 PipeEnd.rd :: evs)
  | some (evs, none) =>
    some (Event.close 0 PipeEnd.rd :: evs ++ [Event.close 0 PipeEnd.wr, Event.exit 0])

/-- Values whose `write` transferred a whole `int`. -/
def sentValues : List Event → List Int
  | [] => []
  | Event.write v n :: es => if n = sizeofInt then v :: sentValues es else sentValues es
  | _ :: es => sentValues es

/-- Values announced by a "Sent number" line. -/
def announcedValues : List Event → List Int
  | [] => []
  | Event.sentLine v :: es => v :: announcedValues es
  | _ :: es => announcedValues es

/-- Number of calls of `write`. -/
def writeCalls : List Event → Nat
  | [] => 0
  | Event.write _ _ :: es => writeCalls es + 1
  | _ :: es => writeCalls es

/-- Exit codes passed to `_exit`, in order. -/
def exitCodes : List Event → List Nat
  | [] => []
  | Event.exit c :: es => c :: exitCodes es
  | _ :: es => exitCodes es

/-- The integers `lo, lo + 1, ..., lo + n - 1`. -/
def intRange (lo : Int) (n : Nat) : List Int :=
  (List.range n).map (fun (j : Nat) => lo + (j : Int))

/-! ## Consumer child -/

/-- State of a consumer: the running sum, the events so far, and the exit code
once it has called `_exit`. -/
structure ConsState where
  sum : Int
  log : List Event
  exit : Option Nat
  deriving DecidableEq

/-- Consumer after `close(pipe_fd[1])`, with `sum = 0`. -/
def consumerInit (p : Nat) : ConsState :=
  ⟨0, [Event.close p PipeEnd.wr], none⟩

/-- Statements after the consumer's `while` loop.  `run_basic_demo` closes the
read end before the final line (lines 81-83), `run_multiple_pairs` after it
(lines 165-167). -/
def consumerEpilogue (basic : Bool) (p : Nat) (sum : Int) : List Event :=
  if basic then [Event.close p PipeEnd.rd, Event.finalLine sum, Event.exit 0]
  else [Event.finalLine sum, Event.close p PipeEnd.rd, Event.exit 0]

/-- One evaluation of the loop condition `read_int(pipe_fd[0], &val)`, where
`read` returned `o.1` with `val = o.2`, followed by the loop body, or by the
statements after the loop when the condition is 0. -/
def consumerStep (basic : Bool) (p : Nat) (st : ConsState) (o : Int × Int) : ConsState :=
  match st.exit with
  | some _ => st
  | none =>
    if read_int o.1 ≠ 0 then
      let sum := wrapInt (st.sum + o.2)
      ⟨sum, st.log ++ [Event.read o.1 o.2, Event.recvLine o.2 sum], none⟩
    else
      ⟨st.sum, st.log ++ Event.read o.1 o.2 :: consumerEpilogue basic p st.sum, some 0⟩

/-- Consumer child run against the successive outcomes of `read`.  The final
state has `exit = none` when the outcomes end while the loop is still
running (the consumer is blocked in `read`). -/
def consumer (basic : Bool) (p : Nat) (reads : List (Int × Int)) : ConsState :=
  reads.foldl (consumerStep basic p) (consumerInit p)

/-- Values of the "Received" lines, in order. -/
def receivedValues : List Event → List Int
  | [] => []
  | Event.recvLine v _ :: es => v :: receivedValues es
  | _ :: es => receivedValues es

/-! ## Supervisor -/

/-- Results of the system calls a supervisor makes, and the two status macros
of `<sys/wait.h>` (the header is not part of the repository, so the macros are
inputs of the model). -/
structure Env where
  /-- Value returned by `pipe` for pair `p`. -/
  pipeRet : Nat → Int
  /-- Value returned by the `fork` that creates the producer of pair `p`. -/
  forkProd : Nat → Int
  /-- Value returned by the `fork` that creates the consumer of pair `p`. -/
  forkCons : Nat → Int
  /-- Value returned by the `i`-th call of `waitpid`, and the `status` it stores. -/
  waitRet : Nat → Int × Int
  /-- Status macro `WIFEXITED`. -/
  wifexited : Int → Bool
  /-- Status macro `WEXITSTATUS`. -/
  wexitstatus : Int → Int

/-- The expression `WIFEXITED(status) ? WEXITSTATUS(status) : -1`. -/
def shownStatus (env : Env) (status : Int) : Int :=
  if env.wifexited status then env.wexitstatus status else -1

/-- One `waitpid` call (the `i`-th of the run) with its `if (w > 0) printf`. -/
def waitAndReport (env : Env) (i : Nat) (pid : Int) : List Event :=
  if 0 < (env.waitRet i).1 then
    [Event.waitpid pid, Event.report (env.waitRet i).1 (shownStatus env (env.waitRet i).2)]
  else [Event.waitpid pid]

/-- What a process has done when it leaves a run function.  `child = some r`
means that `fork` returned 0: the process is the new child of role `r`, which
goes on with the producer or consumer code and never returns. -/
structure RunResult where
  log : List Event
  child : Option Role
  deriving DecidableEq

/-- Function `run_basic_demo` up to its return, seen from the calling process.
Its `fork` events carry the bounds 1 and 5 of the producer loop (line 51). -/
def run_basic_demo (env : Env) : RunResult :=
  if env.pipeRet 0 = -1 then ⟨[Event.pipe 0 (env.pipeRet 0)], none⟩
  else
    let producer_pid := env.forkProd 0
    let l1 := [Event.pipe 0 (env.pipeRet 0), Event.fork 0 Role.producer producer_pid 1 5]
    if producer_pid < 0 then
      ⟨l1 ++ [Event.close 0 PipeEnd.rd, Event.close 0 PipeEnd.wr], none⟩
    else if producer_pid = 0 then ⟨l1, some Role.producer⟩
    else
      let consumer_pid := env.forkCons 0
      let l2 := l1 ++ [Event.fork 0 Role.consumer consumer_pid 1 5]
      if consumer_pid < 0 then
        ⟨l2 ++ [Event.close 0 PipeEnd.rd, Event.close 0 PipeEnd.wr], none⟩
      else if consumer_pid = 0 then ⟨l2, some Role.consumer⟩
      else
        ⟨l2 ++ [Event.close 0 PipeEnd.rd, Event.close 0 PipeEnd.wr]
            ++ waitAndReport env 0 producer_pid ++ waitAndReport env 1 consumer_pid, none⟩

/-- Effect of one iteration of the `for (p ...)` loop of `run_multiple_pairs`:
its events, the pids stored in `children`, the value of `start` afterwards, and
the child role when the process is a freshly forked child. -/
structure IterResult where
  log : List Event
  pids : List Int
  start : Int
  child : Option Role
  deriving DecidableEq

/-- Body of the `for (p ...)` loop of `run_multiple_pairs` (lines 121-176). -/
def pairIteration (env : Env) (span : Int) (p : Nat) (start : Int) : IterResult :=
  if env.pipeRet p = -1 then ⟨[Event.pipe p (env.pipeRet p)], [], start, none⟩
  else
    let prod := env.forkProd p
    let l1 := [Event.pipe p (env.pipeRet p), Event.fork p Role.producer prod start span]
    if prod < 0 then
      ⟨l1 ++ [Event.close p PipeEnd.rd, Event.close p PipeEnd.wr], [], start, none⟩
    else if prod = 0 then ⟨l1, [], start, some Role.producer⟩
    else
      let cons := env.forkCons p
      let l2 := l1 ++ [Event.fork p Role.consumer cons start span]
      if cons < 0 then
        ⟨l2 ++ [Event.close p PipeEnd.rd, Event.close p PipeEnd.wr], [prod], start, none⟩
      else if cons = 0 then ⟨l2, [prod], start, some Role.consumer⟩
      else
        ⟨l2 ++ [Event.close p PipeEnd.rd, Event.close p PipeEnd.wr], [prod, cons],
          wrapInt (start + span), none⟩

/-- The `for (p ...)` loop with `n` iterations left, at index `p`: events, pids
appended to `children`, and the child role if the process became a child. -/
def pairsLoop (env : Env) (span : Int) : Nat → Nat → Int → List Event × List Int × Option Role
  | 0, _, _ => ([], [], none)
  | n + 1, p, start =>
    let it := pairIteration env span p start
    match it.child with
    | some r => (it.log, it.pids, some r)
    | none =>
      let rest := pairsLoop env span n (p + 1) it.start
      (it.log ++ rest.1, it.pids ++ rest.2.1, rest.2.2)

/-- The final loop `for (i = 0; i < child_count; i++)` over the remaining
entries of `children`, at index `i`. -/
def waitLoop (env : Env) : List Int → Nat → List Event
  | [], _ => []
  | pid :: rest, i => waitAndReport env i pid ++ waitLoop env rest (i + 1)

/-- Function `run_multiple_pairs` with the constants `pairs` and `span` as
arguments (the source fixes `pairs = 2`, `span = 5`); `start` begins at 1. -/
def run_multiple_pairs (env : Env) (pairs : Nat) (span : Int) : RunResult :=
  match pairsLoop env span pairs 0 1 with
  | (log, _, some r) => ⟨log, some r⟩
  | (log, children, none) => ⟨log ++ waitLoop env children 0, none⟩

/-- Pids passed to `waitpid`, in order. -/
def waitedPids : List Event → List Int
  | [] => []
  | Event.waitpid pid :: es => pid :: waitedPids es
  | _ :: es => waitedPids es

/-- Pids returned by successful `fork` calls, in order. -/
def spawnedPids : List Event → List Int
  | [] => []
  | Event.fork _ _ ret _ _ :: es => if 0 < ret then ret :: spawnedPids es else spawnedPids es
  | _ :: es => spawnedPids es

/-- Pair index and role of each successful `fork`, in order. -/
def spawnedUnits : List Event → List (Nat × Role)
  | [] => []
  | Event.fork p r ret _ _ :: es =>
    if 0 < ret then (p, r) :: spawnedUnits es else spawnedUnits es
  | _ :: es => spawnedUnits es

/-- Pair index and range bounds `(p, lo, hi)` of every producer that was
spawned: `lo` is the `start` it inherits and `hi` the loop bound `start + span`
it computes (line 139). -/
def producerRanges : List Event → List (Nat × Int × Int)
  | [] => []
  | Event.fork p Role.producer ret start span :: es =>
    if 0 < ret then (p, start, wrapInt (start + span)) :: producerRanges es
    else producerRanges es
  | _ :: es => producerRanges es

/-- Events that end the set-up of pair `p`: any `waitpid`, or the `pipe` call of
a later pair. -/
def endsPair (p : Nat) : Event → Bool
  | Event.waitpid _ => true
  | Event.pipe q _ => decide (p < q)
  | _ => false

/-- Status macros of glibc: `WIFEXITED(s)` is `(s & 0x7f) == 0` and
`WEXITSTATUS(s)` is `(s & 0xff00) >> 8`. -/
def glibcEnv (pipeRet forkProd forkCons : Nat → Int) (waitRet : Nat → Int × Int) : Env :=
  ⟨pipeRet, forkProd, forkCons, waitRet, fun s => s % 128 == 0, fun s => s / 256 % 256⟩

/-- A run in which every call succeeds: the pids are 100, 101, 102, ... and
every child exits with code 0. -/
def okEnv : Env :=
  glibcEnv (fun _ => 0) (fun p => 100 + 2 * (p : Int)) (fun p => 101 + 2 * (p : Int))
    (fun i => (100 + (i : Int), 0))

/-- A run in which the consumer `fork` of the first pair fails and every other
call succeeds. -/
def consForkFailEnv : Env :=
  glibcEnv (fun _ => 0) (fun p => 100 + 2 * (p : Int))
    (fun p => if p = 0 then -1 else 101 + 2 * (p : Int)) (fun i => (100 + (i : Int), 0))

/-- A run of three pairs in which `pipe` fails for the second pair only. -/
def pipeFailEnv : Env :=
  glibcEnv (fun p => if p = 1 then -1 else 0) (fun p => 100 + 2 * (p : Int))
    (fun p => 101 + 2 * (p : Int)) (fun i => (100 + (i : Int), 0))

/-- Values stored by the calls of `read` for which `read_int` returned non-zero,
in order. -/
def readValues : List Event → List Int
  | [] => []
  | Event.read n v :: es => if read_int n ≠ 0 then v :: readValues es else readValues es
  | _ :: es => readValues es

/-- Number of calls of `read`. -/
def readCalls : List Event → Nat
  | [] => 0
  | Event.read _ _ :: es => readCalls es + 1
  | _ :: es => readCalls es

/-- Events of the successful loop rounds of a producer for the values `vs`: a
complete `write` followed by the "Sent number" line, for each value in turn. -/
def sendRounds : List Int → List Event
  | [] => []
  | v :: vs => Event.write v sizeofInt :: Event.sentLine v :: sendRounds vs

/-- Pair indices of the `pipe` calls, in order. -/
def pipeCalls : List Event → List Nat
  | [] => []
  | Event.pipe p _ :: es => p :: pipeCalls es
  | _ :: es => pipeCalls es

/-- The pid and the status shown by each "exited with status" line, in order. -/
def reportsOf : List Event → List (Int × Int)
  | [] => []
  | Event.report w c :: es => (w, c) :: reportsOf es
  | _ :: es => reportsOf es

/-- Pairs among `0 .. pairs - 1` whose `pipe` call did not return -1. -/
def createdPairs (env : Env) (pairs : Nat) : List Nat :=
  (List.range pairs).filter (fun p => decide (env.pipeRet p ≠ -1))

/-- What `n` successive `waitpid` calls should make the supervisor print: for
each call that returned a pid `w > 0`, that pid with the status expression. -/
def expectedReports (env : Env) (n : Nat) : List (Int × Int) :=
  ((List.range n).filter (fun i => decide (0 < (env.waitRet i).1))).map
    (fun i => ((env.waitRet i).1, shownStatus env (env.waitRet i).2))

/-- In `log`, end `e` of the pipe of pair `p` is closed exactly once, and that
one `close` comes before the first event that ends the set-up of pair `p`. -/
def ClosedOnceBefore (p : Nat) (e : PipeEnd) (log : List Event) : Prop :=
  log.count (Event.close p e) = 1 ∧
  (log.takeWhile (fun ev => !endsPair p ev)).count (Event.close p e) = 1

/-! ## One pair over its pipe -/

/-- The four bytes that `write(fd, &value, sizeof(value))` transfers for
`value = v`, least significant first. -/
def encodeInt (v : Int) : List Nat :=
  [(v % 4294967296).toNat % 256, (v % 4294967296).toNat / 256 % 256,
    (v % 4294967296).toNat / 65536 % 256, (v % 4294967296).toNat / 16777216 % 256]

/-- The `int` that `read(fd, out, sizeof( *out))` leaves in `*out` when it
returns the four bytes `bs`. -/
def decodeInt : List Nat → Int
  | [b0, b1, b2, b3] => wrapInt ((b0 : Int) + 256 * b1 + 65536 * b2 + 16777216 * b3)
  | _ => 0

/-- Bytes of a sequence of messages. -/
def encodeAll : List Int → List Nat
  | [] => []
  | v :: vs => encodeInt v ++ encodeAll vs

/-- A producer and a consumer joined by one pipe.  `pending` holds the values
for which the producer has still to call `write_int`, `wopen` tells whether the
write end is still open (the consumer closes its copy before its loop and the
supervisor closes its copies, so this is the producer's copy), `buf` is the
content of the pipe in bytes, and `cons` is the consumer. -/
structure PairState where
  pending : List Int
  wopen : Bool
  buf : List Nat
  cons : ConsState
  deriving DecidableEq

/-- Both children are about to enter their loops and the pipe is empty. -/
def pairInit (p : Nat) (xs : List Int) : PairState :=
  ⟨xs, true, [], consumerInit p⟩

/-- One turn of the producer on a pipe holding at most `cap` bytes: the next
`write_int`, which succeeds once there is room for a whole message and blocks
(no change) until then; after the last value, `close(pipe_fd[1])`. -/
def producerTurn (cap : Nat) (s : PairState) : PairState :=
  match s.pending with
  | x :: rest =>
    if s.buf.length + 4 ≤ cap then ⟨rest, s.wopen, s.buf ++ encodeInt x, s.cons⟩ else s
  | [] => ⟨[], false, s.buf, s.cons⟩

/-- One turn of the consumer: the next `read_int`.  On an empty pipe `read`
blocks (no change) while the write end is open and returns 0 once it is closed;
otherwise it returns the first bytes of the pipe, at most four. -/
def consumerTurn (basic : Bool) (p : Nat) (s : PairState) : PairState :=
  match s.cons.exit with
  | some _ => s
  | none =>
    match s.buf with
    | [] =>
      if s.wopen then s
      else ⟨s.pending, s.wopen, [], consumerStep basic p s.cons (0, 0)⟩
    | b :: bs =>
      ⟨s.pending, s.wopen, (b :: bs).drop 4,
        consumerStep basic p s.cons
          ((((b :: bs).take 4).length : Nat), decodeInt ((b :: bs).take 4))⟩

/-- One turn of the child chosen by the scheduler. -/
def pairTurn (cap : Nat) (basic : Bool) (p : Nat) (s : PairState) : Role → PairState
  | Role.producer => producerTurn cap s
  | Role.consumer => consumerTurn basic p s

/-- Run of the pair under a schedule: the list of children in the order in
which they take their turns. -/
def runPair (cap : Nat) (basic : Bool) (p : Nat) (sched : List Role) (s : PairState) :
    PairState :=
  sched.foldl (pairTurn cap basic p) s

/-- The schedule that lets the producer and the consumer alternate `n` times. -/
def alternate : Nat → List Role
  | 0 => []
  | n + 1 => Role.producer :: Role.consumer :: alternate n

/-- Invariant of a pair that sends `xs`: the values received, those in the
pipe and those still to send make up `xs` in order; the values printed are
those read; the sum is the sum of the values received; a closed write end means
everything was sent; a consumer that has exited did so with code 0 after
everything was received, and printed its sum. -/
def PairInv (xs : List Int) (s : PairState) : Prop :=
  ∃ mid : List Int,
    receivedValues s.cons.log ++ mid ++ s.pending = xs ∧
    readValues s.cons.log = receivedValues s.cons.log ∧
    s.buf = encodeAll mid ∧
    s.cons.sum = wrapInt (receivedValues s.cons.log).sum ∧
    (s.wopen = false → s.pending = []) ∧
    (s.cons.exit ≠ none →
      mid = [] ∧ s.pending = [] ∧ s.cons.exit = some 0 ∧
      Event.finalLine s.cons.sum ∈ s.cons.log)

/-! ## Lemmas on lists of events -/

theorem intRange_zero (lo : Int) : intRange lo 0 = [] := rfl

theorem intRange_succ (lo : Int) (n : Nat) :
    intRange lo (n + 1) = lo :: intRange (lo + 1) n := by
  unfold intRange
  rw [List.range_succ_eq_map]
  simp only [List.map_cons, List.map_map, Nat.cast_zero, add_zero]
  congr 1
  apply List.map_congr_left
  intro j _
  show lo + ((j + 1 : Nat) : Int) = lo + 1 + (j : Int)
  push_cast
  ring

theorem intRange_length (lo : Int) (n : Nat) : (intRange lo n).length = n := by
  unfold intRange
  rw [List.length_map, List.length_range]

theorem sentValues_append (a b : List Event) :
    sentValues (a ++ b) = sentValues a ++ sentValues b := by
  induction a with
  | nil => rfl
  | cons e es ih =>
    cases e <;> simp [sentValues, ih]
    case write v n => by_cases h : n = sizeofInt <;> simp [h]

theorem announcedValues_append (a b : List Event) :
    announcedValues (a ++ b) = announcedValues a ++ announcedValues b := by
  induction a with
  | nil => rfl
  | cons e es ih => cases e <;> simp [announcedValues, ih]

theorem writeCalls_append (a b : List Event) :
    writeCalls (a ++ b) = writeCalls a + writeCalls b := by
  induction a with
  | nil => simp [writeCalls]
  | cons e es ih =>
    cases e <;> simp [writeCalls, ih]
    omega

theorem exitCodes_append (a b : List Event) :
    exitCodes (a ++ b) = exitCodes a ++ exitCodes b := by
  induction a with
  | nil => rfl
  | cons e es ih => cases e <;> simp [exitCodes, ih]

theorem receivedValues_append (a b : List Event) :
    receivedValues (a ++ b) = receivedValues a ++ receivedValues b := by
  induction a with
  | nil => rfl
  | cons e es ih => cases e <;> simp [receivedValues, ih]

theorem readValues_append (a b : List Event) :
    readValues (a ++ b) = readValues a ++ readValues b := by
  induction a with
  | nil => rfl
  | cons e es ih =>
    cases e <;> simp [readValues, ih]
    case read n v => by_cases h : read_int n = 0 <;> simp [h]

theorem readCalls_append (a b : List Event) :
    readCalls (a ++ b) = readCalls a + readCalls b := by
  induction a with
  | nil => simp [readCalls]
  | cons e es ih =>
    cases e <;> simp [readCalls, ih]
    omega

theorem sentValues_rounds (vs : List Int) : sentValues (sendRounds vs) = vs := by
  induction vs with
  | nil => rfl
  | cons v vs ih => simp [sendRounds, sentValues, ih]

theorem announcedValues_rounds (vs : List Int) :
    announcedValues (sendRounds vs) = vs := by
  induction vs with
  | nil => rfl
  | cons v vs ih => simp [sendRounds, announcedValues, ih]

theorem writeCalls_rounds (vs : List Int) : writeCalls (sendRounds vs) = vs.length := by
  induction vs with
  | nil => rfl
  | cons v vs ih => simp [sendRounds, writeCalls, ih]

theorem exitCodes_rounds (vs : List Int) : exitCodes (sendRounds vs) = [] := by
  induction vs with
  | nil => rfl
  | cons v vs ih => simp [sendRounds, exitCodes, ih]

/-! ## The producer loop -/

/-- A loop whose first `k` writes are complete and whose next write is not:
it performs `k` full rounds, the failing `write`, and `_exit(1)`. -/
theorem sendLoop_fail (cont : Int → Bool) (wr : Nat → Int) :
    ∀ (k fuel : Nat) (i : Int) (j0 : Nat), k < fuel →
      (∀ j, j ≤ k → cont (i + (j : Int)) = true) →
      (∀ j, j < k → wr (j0 + j) = sizeofInt) → wr (j0 + k) ≠ sizeofInt →
      sendLoop cont wr fuel i j0 =
        some (sendRounds (intRange i k) ++
          [Event.write (i + (k : Int)) (wr (j0 + k)), Event.exit 1], some 1) := by
  intro k
  induction k with
  | zero =>
    intro fuel i j0 hf hc _ hb
    obtain ⟨f, rfl⟩ : ∃ f, fuel = f + 1 := ⟨fuel - 1, by omega⟩
    have h0 : cont i = true := by simpa using hc 0 (le_refl 0)
    have hb0 : wr j0 ≠ sizeofInt := by simpa using hb
    simp [sendLoop, h0, write_int, hb0, intRange, sendRounds]
  | succ k ih =>
    intro fuel i j0 hf hc hok hb
    obtain ⟨f, rfl⟩ : ∃ f, fuel = f + 1 := ⟨fuel - 1, by omega⟩
    have h0 : cont i = true := by simpa using hc 0 (Nat.zero_le _)
    have hw0 : wr j0 = sizeofInt := by simpa using hok 0 (Nat.succ_pos k)
    have hrec := ih f (i + 1) (j0 + 1) (by omega)
      (fun j hj => by
        have := hc (j + 1) (by omega)
        rw [show i + 1 + (j : Int) = i + ((j + 1 : Nat) : Int) by push_cast; ring]
        exact this)
      (fun j hj => by
        have := hok (j + 1) (by omega)
        rw [show j0 + 1 + j = j0 + (j + 1) by omega]
        exact this)
      (by rw [show j0 + 1 + k = j0 + (k + 1) by omega]; exact hb)
    simp only [sendLoop, h0, if_true, write_int, hw0, ne_eq, not_true_eq_false, if_false, hrec]
    rw [intRange_succ]
    simp only [sendRounds, List.cons_append, List.nil_append, List.singleton_append]
    rw [show i + 1 + (k : Int) = i + ((k + 1 : Nat) : Int) by push_cast; ring,
      show j0 + 1 + k = j0 + (k + 1) by omega]

/-- A loop all of whose `n` writes are complete and whose condition fails after
them: it performs exactly `n` full rounds and falls through. -/
theorem sendLoop_ok (cont : Int → Bool) (wr : Nat → Int) :
    ∀ (n fuel : Nat) (i : Int) (j0 : Nat), n < fuel →
      (∀ j, j < n → cont (i + (j : Int)) = true) → cont (i + (n : Int)) = false →
      (∀ j, j < n → wr (j0 + j) = sizeofInt) →
      sendLoop cont wr fuel i j0 = some (sendRounds (intRange i n), none) := by
  intro n
  induction n with
  | zero =>
    intro fuel i j0 hf _ hc _
    obtain ⟨f, rfl⟩ : ∃ f, fuel = f + 1 := ⟨fuel - 1, by omega⟩
    have h0 : cont i = false := by simpa using hc
    simp [sendLoop, h0, intRange, sendRounds]
  | succ n ih =>
    intro fuel i j0 hf hc hstop hok
    obtain ⟨f, rfl⟩ : ∃ f, fuel = f + 1 := ⟨fuel - 1, by omega⟩
    have h0 : cont i = true := by simpa using hc 0 (Nat.succ_pos n)
    have hw0 : wr j0 = sizeofInt := by simpa using hok 0 (Nat.succ_pos n)
    have hrec := ih f (i + 1) (j0 + 1) (by omega)
      (fun j hj => by
        have := hc (j + 1) (by omega)
        rw [show i + 1 + (j : Int) = i + ((j + 1 : Nat) : Int) by push_cast; ring]
        exact this)
      (by
        rw [show i + 1 + (n : Int) = i + ((n + 1 : Nat) : Int) by push_cast; ring]
        exact hstop)
      (fun j hj => by
        have := hok (j + 1) (by omega)
        rw [show j0 + 1 + j = j0 + (j + 1) by omega]
        exact this)
    simp only [sendLoop, h0, if_true, write_int, hw0, ne_eq, not_true_eq_false, if_false, hrec]
    rw [intRange_succ]
    simp only [sendRounds, List.cons_append, List.nil_append, List.singleton_append]

theorem wrapInt_of_inRange (x : Int) (h : InIntRange x) : wrapInt x = x := by
  unfold InIntRange INT_MIN INT_MAX at h
  unfold wrapInt
  omega

theorem wrapInt_add_wrapInt (a b : Int) : wrapInt (wrapInt a + b) = wrapInt (a + b) := by
  unfold wrapInt
  omega

/-! ## The consumer loop -/

theorem consumerStep_exited (basic : Bool) (p : Nat) (st : ConsState) (c : Nat)
    (h : st.exit = some c) (rest : List (Int × Int)) :
    rest.foldl (consumerStep basic p) st = st := by
  induction rest with
  | nil => rfl
  | cons o os ih =>
    have : consumerStep basic p st o = st := by simp [consumerStep, h]
    rw [List.foldl_cons, this, ih]

theorem read_int_full : read_int sizeofInt = 1 := by decide

theorem read_int_not_full (n : Int) (h : n ≠ sizeofInt) : read_int n = 0 := by
  unfold read_int
  split
  · rfl
  · split
    · rfl
    · simp [h]

/-- A running consumer that receives only full messages keeps running; it
adds each value to the sum and prints one line per value. -/
theorem consumer_full_reads (basic : Bool) (p : Nat) :
    ∀ (pre : List (Int × Int)) (st : ConsState), st.exit = none → wrapInt st.sum = st.sum →
      (∀ x ∈ pre, x.1 = sizeofInt) →
      (pre.foldl (consumerStep basic p) st).exit = none ∧
      (pre.foldl (consumerStep basic p) st).sum = wrapInt (st.sum + (pre.map Prod.snd).sum) ∧
      receivedValues (pre.foldl (consumerStep basic p) st).log =
        receivedValues st.log ++ pre.map Prod.snd ∧
      readCalls (pre.foldl (consumerStep basic p) st).log = readCalls st.log + pre.length ∧
      exitCodes (pre.foldl (consumerStep basic p) st).log = exitCodes st.log := by
  intro pre
  induction pre with
  | nil =>
    intro st he hs _
    simp [hs, he]
  | cons o os ih =>
    intro st he hs hfull
    have ho : o.1 = sizeofInt := hfull o (List.mem_cons_self _ _)
    have hstep : consumerStep basic p st o =
        ⟨wrapInt (st.sum + o.2),
          st.log ++ [Event.read o.1 o.2, Event.recvLine o.2 (wrapInt (st.sum + o.2))], none⟩ := by
      simp [consumerStep, he, ho, read_int_full]
    have hw : wrapInt (wrapInt (st.sum + o.2)) = wrapInt (st.sum + o.2) := by
      unfold wrapInt; omega
    obtain ⟨h1, h2, h3, h4, h5⟩ := ih (consumerStep basic p st o) (by rw [hstep]) (by rw [hstep]; exact hw)
      (fun x hx => hfull x (List.mem_cons_of_mem _ hx))
    rw [List.foldl_cons]
    refine ⟨h1, ?_, ?_, ?_, ?_⟩
    · rw [h2, hstep]
      simp only [List.map_cons, List.sum_cons]
      rw [wrapInt_add_wrapInt, add_assoc]
    · rw [h3, hstep]
      simp [receivedValues_append, receivedValues]
    · rw [h4, hstep]
      simp [readCalls_append, readCalls]
      omega
    · rw [h5, hstep]
      simp [exitCodes_append, exitCodes]

/-! ## One pair over its pipe: invariant and termination -/

theorem decodeInt_encodeInt (v : Int) (h : InIntRange v) : decodeInt (encodeInt v) = v := by
  unfold InIntRange INT_MIN INT_MAX at h
  unfold encodeInt decodeInt wrapInt
  simp only
  omega

theorem encodeInt_length (v : Int) : (encodeInt v).length = 4 := rfl

theorem encodeAll_append (a b : List Int) : encodeAll (a ++ b) = encodeAll a ++ encodeAll b := by
  induction a with
  | nil => rfl
  | cons v vs ih => simp [encodeAll, ih]

theorem encodeAll_eq_nil (mid : List Int) (h : encodeAll mid = []) : mid = [] := by
  cases mid with
  | nil => rfl
  | cons v vs => simp [encodeAll, encodeInt] at h

theorem take_encodeAll (v : Int) (vs : List Int) :
    (encodeAll (v :: vs)).take 4 = encodeInt v := by
  simp [encodeAll, encodeInt]

theorem drop_encodeAll (v : Int) (vs : List Int) :
    (encodeAll (v :: vs)).drop 4 = encodeAll vs := by
  simp [encodeAll, encodeInt]

theorem pairInv_init (p : Nat) (xs : List Int) : PairInv xs (pairInit p xs) := by
  refine ⟨[], ?_, ?_, rfl, ?_, ?_, ?_⟩
  · simp [pairInit, consumerInit, receivedValues]
  · simp [pairInit, consumerInit, receivedValues, readValues]
  · simp [pairInit, consumerInit, receivedValues, wrapInt]
  · intro h; simp [pairInit] at h
  · intro h; simp [pairInit, consumerInit] at h

theorem pairInv_producerTurn (cap : Nat) (xs : List Int) (s : PairState)
    (h : PairInv xs s) : PairInv xs (producerTurn cap s) := by
  obtain ⟨mid, h1, hrd, h2, h3, h4, h5⟩ := h
  unfold producerTurn
  cases hp : s.pending with
  | nil =>
    refine ⟨mid, ?_, hrd, h2, h3, fun _ => rfl, ?_⟩
    · simpa [hp] using h1
    · intro he
      obtain ⟨a, _, c, d⟩ := h5 he
      exact ⟨a, rfl, c, d⟩
  | cons x rest =>
    simp only
    split
    · have hrun : s.cons.exit = none := by
        by_contra he
        have := (h5 he).2.1
        rw [hp] at this
        cases this
      refine ⟨mid ++ [x], ?_, hrd, ?_, h3, ?_, ?_⟩
      · simpa [hp] using h1
      · simp [encodeAll_append, encodeAll, h2]
      · intro hw
        have := h4 hw
        rw [hp] at this
        cases this
      · intro he
        exact absurd hrun he
    · exact ⟨mid, h1, hrd, h2, h3, h4, h5⟩

theorem pairInv_consumerTurn (basic : Bool) (p : Nat) (xs : List Int)
    (hx : ∀ x ∈ xs, InIntRange x) (s : PairState) (h : PairInv xs s) :
    PairInv xs (consumerTurn basic p s) := by
  obtain ⟨mid, h1, hrd, h2, h3, h4, h5⟩ := h
  unfold consumerTurn
  cases he : s.cons.exit with
  | some c => exact ⟨mid, h1, hrd, h2, h3, h4, h5⟩
  | none =>
    simp only
    cases hb : s.buf with
    | nil =>
      simp only
      have hmid : mid = [] := encodeAll_eq_nil mid (by rw [← h2, hb])
      subst hmid
      cases hw : s.wopen with
      | true =>
        simp only [if_true]
        exact ⟨[], h1, hrd, h2, h3, h4, h5⟩
      | false =>
        have hpend := h4 hw
        have hstep : consumerStep basic p s.cons (0, 0) =
            ⟨s.cons.sum, s.cons.log ++ Event.read 0 0 :: consumerEpilogue basic p s.cons.sum,
              some 0⟩ := by
          simp [consumerStep, he, read_int]
        have hrecv : receivedValues (s.cons.log ++
            Event.read 0 0 :: consumerEpilogue basic p s.cons.sum) =
            receivedValues s.cons.log := by
          cases basic <;> simp [receivedValues_append, receivedValues, consumerEpilogue]
        have hreadv : readValues (s.cons.log ++
            Event.read 0 0 :: consumerEpilogue basic p s.cons.sum) =
            readValues s.cons.log := by
          cases basic <;> simp [readValues_append, readValues, consumerEpilogue, read_int]
        simp only [Bool.false_eq_true, if_false, hstep]
        refine ⟨[], ?_, ?_, rfl, ?_, fun _ => hpend, fun _ => ⟨rfl, hpend, rfl, ?_⟩⟩
        · simpa [hrecv] using h1
        · rw [hreadv, hrecv]; exact hrd
        · simpa [hrecv] using h3
        · cases basic <;> simp [consumerEpilogue]
    | cons b bs =>
      simp only
      cases mid with
      | nil => rw [hb] at h2; simp [encodeAll] at h2
      | cons v vs =>
        have hv : InIntRange v := hx v (by rw [← h1]; simp)
        have htake : (b :: bs).take 4 = encodeInt v := by
          rw [← hb, h2]; exact take_encodeAll v vs
        have hdrop : (b :: bs).drop 4 = encodeAll vs := by
          rw [← hb, h2]; exact drop_encodeAll v vs
        rw [htake, hdrop, decodeInt_encodeInt v hv]
        have hstep : consumerStep basic p s.cons (((encodeInt v).length : Nat), v) =
            ⟨wrapInt (s.cons.sum + v),
              s.cons.log ++ [Event.read 4 v, Event.recvLine v (wrapInt (s.cons.sum + v))],
              none⟩ := by
          simp [consumerStep, he, encodeInt_length, read_int, sizeofInt]
        rw [hstep]
        refine ⟨vs, ?_, ?_, rfl, ?_, h4, ?_⟩
        · simpa [receivedValues_append, receivedValues] using h1
        · simp [receivedValues_append, receivedValues, readValues_append, readValues, hrd,
            read_int, sizeofInt]
        · simp only [receivedValues_append, receivedValues, List.sum_append, List.sum_cons,
            List.sum_nil, add_zero, h3]
          exact wrapInt_add_wrapInt _ _
        · intro hne
          exact absurd rfl hne

/-- The invariant holds after every schedule. -/
theorem pairInv_runPair (cap : Nat) (basic : Bool) (p : Nat) (xs : List Int)
    (hx : ∀ x ∈ xs, InIntRange x) :
    ∀ (sched : List Role) (s : PairState), PairInv xs s →
      PairInv xs (runPair cap basic p sched s) := by
  intro sched
  induction sched with
  | nil => intro s h; exact h
  | cons r rs ih =>
    intro s h
    unfold runPair
    rw [List.foldl_cons]
    apply ih
    cases r with
    | producer => exact pairInv_producerTurn cap xs s h
    | consumer => exact pairInv_consumerTurn basic p xs hx s h

/-- With room for one message in the pipe, alternating turns bring the
consumer to its `_exit(0)`. -/
theorem alternate_terminates (cap : Nat) (basic : Bool) (p : Nat) (hcap : 4 ≤ cap) :
    ∀ (pending : List Int) (c : ConsState), c.exit = none →
      (runPair cap basic p (alternate (pending.length + 1)) ⟨pending, true, [], c⟩).cons.exit =
        some 0 := by
  intro pending
  induction pending with
  | nil =>
    intro c hc
    simp [runPair, alternate, pairTurn, producerTurn, consumerTurn, hc, consumerStep, read_int]
  | cons x rest ih =>
    intro c hc
    have hstep : consumerStep basic p c (((encodeInt x).length : Nat), decodeInt (encodeInt x)) =
        ⟨wrapInt (c.sum + decodeInt (encodeInt x)),
          c.log ++ [Event.read 4 (decodeInt (encodeInt x)),
            Event.recvLine (decodeInt (encodeInt x)) (wrapInt (c.sum + decodeInt (encodeInt x)))],
          none⟩ := by
      simp [consumerStep, hc, encodeInt_length, read_int, sizeofInt]
    have hturn : consumerTurn basic p (producerTurn cap ⟨x :: rest, true, [], c⟩) =
        ⟨rest, true, [], consumerStep basic p c
          (((encodeInt x).length : Nat), decodeInt (encodeInt x))⟩ := by
      simp only [producerTurn, List.length_nil, Nat.zero_add, hcap, if_true, List.nil_append]
      simp only [consumerTurn, hc]
      rfl
    have := ih (consumerStep basic p c (((encodeInt x).length : Nat), decodeInt (encodeInt x)))
      (by rw [hstep])
    simpa [runPair, alternate, pairTurn, hturn] using this

/-! ## Claims on the message helpers and the two children -/

/-- C7: `read_int` returns 1 exactly when `read` returned a full word and 0 in
every other case (end of file, error, short read).  So a consumer whose reads
return the full messages `pre` and then an outcome `o` that is not a full
message stops at `o`: it performs `pre.length + 1` reads whatever would follow,
has received exactly the values of `pre`, its final sum is their sum in `int`
arithmetic (the exact sum when that fits an `int`), it prints that sum, and
its only `_exit` has code 0. -/
theorem consumer_stops_at_first_non_message (basic : Bool) (p : Nat)
    (pre : List (Int × Int)) (o : Int × Int) (rest : List (Int × Int))
    (hpre : ∀ x ∈ pre, x.1 = sizeofInt) (ho : o.1 ≠ sizeofInt) :
    (∀ n : Int, read_int n = if n = sizeofInt then 1 else 0) ∧
    (consumer basic p (pre ++ o :: rest)).exit = some 0 ∧
    (consumer basic p (pre ++ o :: rest)).sum = wrapInt (pre.map Prod.snd).sum ∧
    (InIntRange (pre.map Prod.snd).sum →
      (consumer basic p (pre ++ o :: rest)).sum = (pre.map Prod.snd).sum) ∧
    receivedValues (consumer basic p (pre ++ o :: rest)).log = pre.map Prod.snd ∧
    readCalls (consumer basic p (pre ++ o :: rest)).log = pre.length + 1 ∧
    Event.finalLine (consumer basic p (pre ++ o :: rest)).sum ∈
      (consumer basic p (pre ++ o :: rest)).log ∧
    exitCodes (consumer basic p (pre ++ o :: rest)).log = [0] := by
  have hread : ∀ n : Int, read_int n = if n = sizeofInt then 1 else 0 := by
    intro n
    by_cases h : n = sizeofInt
    · rw [if_pos h, h]; exact read_int_full
    · rw [if_neg h]; exact read_int_not_full n h
  obtain ⟨h1, h2, h3, h4, h5⟩ := consumer_full_reads basic p pre (consumerInit p) rfl
    (by simp [consumerInit, wrapInt]) hpre
  have hrun : consumer basic p (pre ++ o :: rest) =
      consumerStep basic p (pre.foldl (consumerStep basic p) (consumerInit p)) o := by
    unfold consumer
    rw [List.foldl_append, List.foldl_cons]
    apply consumerStep_exited basic p _ 0
    simp [consumerStep, h1, read_int_not_full o.1 ho]
  have hstep : consumerStep basic p (pre.foldl (consumerStep basic p) (consumerInit p)) o =
      ⟨(pre.foldl (consumerStep basic p) (consumerInit p)).sum,
        (pre.foldl (consumerStep basic p) (consumerInit p)).log ++
          Event.read o.1 o.2 ::
            consumerEpilogue basic p (pre.foldl (consumerStep basic p) (consumerInit p)).sum,
        some 0⟩ := by
    simp [consumerStep, h1, read_int_not_full o.1 ho]
  have hsum : (consumer basic p (pre ++ o :: rest)).sum = wrapInt (pre.map Prod.snd).sum := by
    rw [hrun, hstep]
    simpa [consumerInit] using h2
  rw [hsum]
  refine ⟨hread, ?_, rfl, ?_, ?_, ?_, ?_, ?_⟩
  · rw [hrun, hstep]
  · intro hr
    exact wrapInt_of_inRange _ hr
  · rw [hrun, hstep]
    simp only [receivedValues_append, h3]
    cases basic <;> simp [consumerEpilogue, receivedValues, consumerInit]
  · rw [hrun, hstep]
    simp only [readCalls_append, h4]
    cases basic <;> simp [consumerEpilogue, readCalls, consumerInit]
  · rw [hrun, hstep]
    have : (pre.foldl (consumerStep basic p) (consumerInit p)).sum
        = wrapInt (pre.map Prod.snd).sum := by simpa [consumerInit] using h2
    rw [this]
    cases basic <;> simp [consumerEpilogue]
  · rw [hrun, hstep]
    simp only [exitCodes_append, h5]
    cases basic <;> simp [consumerEpilogue, exitCodes, consumerInit]

/-- Witness of C7: two full messages 1 and 2, then a read error; the full
message 9 that would follow is never read. -/
theorem consumer_stops_at_first_non_message_witness :
    (consumer false 0 [(4, 1), (4, 2), (-1, 2), (4, 9)]).exit = some 0 ∧
    (consumer false 0 [(4, 1), (4, 2), (-1, 2), (4, 9)]).sum = 3 ∧
    readCalls (consumer false 0 [(4, 1), (4, 2), (-1, 2), (4, 9)]).log = 3 := by
  have h := consumer_stops_at_first_non_message false 0 [(4, 1), (4, 2)] (-1, 2) [(4, 9)]
    (by decide) (by decide)
  exact ⟨h.2.1, h.2.2.2.1 (by decide), h.2.2.2.2.2.1⟩

/-- C8: in a producer whose first `k` writes are complete and whose next
write is not (an error or a short write), that write is the last action before
`_exit(1)`: the log is the `k` full rounds for the first `k` values of the
range, the failing `write` of the next value, and `_exit(1)`.  Hence `k + 1`
writes are made (no retry), exactly the first `k` values are sent and
announced, and the only exit code is 1.  This holds for the producer of
`run_multiple_pairs` when the range has more than `k` values, and for the
producer of `run_basic_demo` when `k < 5`. -/
theorem failed_write_is_fatal (p : Nat) (start span : Int) (wr : Nat → Int) (k : Nat)
    (hsp : InIntRange (start + span)) (hk : (k : Int) < span)
    (hok : ∀ j, j < k → wr j = sizeofInt) (hbad : wr k ≠ sizeofInt) :
    (∃ log, producer_multi p start span wr = some log ∧
      log = Event.close p PipeEnd.rd :: sendRounds (intRange start k) ++
        [Event.write (start + (k : Int)) (wr k), Event.exit 1] ∧
      sentValues log = intRange start k ∧ announcedValues log = intRange start k ∧
      writeCalls log = k + 1 ∧ exitCodes log = [1]) ∧
    (k < 5 → ∃ log, producer_basic wr = some log ∧
      log = Event.close 0 PipeEnd.rd :: sendRounds (intRange 1 k) ++
        [Event.write (1 + (k : Int)) (wr k), Event.exit 1] ∧
      sentValues log = intRange 1 k ∧ announcedValues log = intRange 1 k ∧
      writeCalls log = k + 1 ∧ exitCodes log = [1]) := by
  have hobs : ∀ (q : Nat) (lo : Int),
      sentValues (Event.close q PipeEnd.rd :: sendRounds (intRange lo k) ++
        [Event.write (lo + (k : Int)) (wr k), Event.exit 1]) = intRange lo k ∧
      announcedValues (Event.close q PipeEnd.rd :: sendRounds (intRange lo k) ++
        [Event.write (lo + (k : Int)) (wr k), Event.exit 1]) = intRange lo k ∧
      writeCalls (Event.close q PipeEnd.rd :: sendRounds (intRange lo k) ++
        [Event.write (lo + (k : Int)) (wr k), Event.exit 1]) = k + 1 ∧
      exitCodes (Event.close q PipeEnd.rd :: sendRounds (intRange lo k) ++
        [Event.write (lo + (k : Int)) (wr k), Event.exit 1]) = [1] := by
    intro q lo
    refine ⟨?_, ?_, ?_, ?_⟩
    · simp [sentValues, sentValues_append, sentValues_rounds, hbad]
    · simp [announcedValues, announcedValues_append, announcedValues_rounds]
    · simp [writeCalls, writeCalls_append, writeCalls_rounds, intRange_length]
    · simp [exitCodes, exitCodes_append, exitCodes_rounds]
  have hhi : wrapInt (start + span) = start + span := wrapInt_of_inRange _ hsp
  constructor
  · refine ⟨_, ?_, rfl, hobs p start⟩
    have hloop := sendLoop_fail (fun i => decide (i < start + span)) wr k
      ((start + span - start).toNat + 1) start 0 (by omega)
      (fun j hj => by
        have : (j : Int) ≤ (k : Int) := by exact_mod_cast hj
        simp only [decide_eq_true_eq]; omega)
      (fun j hj => by simpa using hok j hj) (by simpa using hbad)
    simp only [Nat.zero_add] at hloop
    simp only [producer_multi, hhi, hloop, List.cons_append]
  · intro hk5
    refine ⟨_, ?_, rfl, hobs 0 1⟩
    have hloop := sendLoop_fail (fun i => decide (i ≤ 5)) wr k 6 1 0 (by omega)
      (fun j hj => by
        have : (j : Int) ≤ (k : Int) := by exact_mod_cast hj
        have : (k : Int) < 5 := by exact_mod_cast hk5
        simp only [decide_eq_true_eq]; omega)
      (fun j hj => by simpa using hok j hj) (by simpa using hbad)
    simp only [Nat.zero_add] at hloop
    simp only [producer_basic, hloop, List.cons_append]

/-- Witness of C8: the producer of the range `[6, 11)` whose third write
transfers only two bytes. -/
theorem failed_write_is_fatal_witness :
    producer_multi 1 6 5 (fun j => if j = 2 then 2 else 4) =
      some [Event.close 1 PipeEnd.rd, Event.write 6 4, Event.sentLine 6, Event.write 7 4,
        Event.sentLine 7, Event.write 8 2, Event.exit 1] := by
  obtain ⟨log, h1, h2, _⟩ := (failed_write_is_fatal 1 6 5 (fun j => if j = 2 then 2 else 4) 2
    (by decide) (by decide) (by decide) (by decide)).1
  rw [h1, h2]
  decide

/-! ## The supervisor loops -/

theorem waitedPids_append (a b : List Event) :
    waitedPids (a ++ b) = waitedPids a ++ waitedPids b := by
  induction a with
  | nil => rfl
  | cons e es ih => cases e <;> simp [waitedPids, ih]

theorem reportsOf_append (a b : List Event) :
    reportsOf (a ++ b) = reportsOf a ++ reportsOf b := by
  induction a with
  | nil => rfl
  | cons e es ih => cases e <;> simp [reportsOf, ih]

theorem pipeCalls_append (a b : List Event) :
    pipeCalls (a ++ b) = pipeCalls a ++ pipeCalls b := by
  induction a with
  | nil => rfl
  | cons e es ih => cases e <;> simp [pipeCalls, ih]

theorem spawnedPids_append (a b : List Event) :
    spawnedPids (a ++ b) = spawnedPids a ++ spawnedPids b := by
  induction a with
  | nil => rfl
  | cons e es ih =>
    cases e <;> simp [spawnedPids, ih]
    case fork q r ret st sp => by_cases h : 0 < ret <;> simp [h]

theorem spawnedUnits_append (a b : List Event) :
    spawnedUnits (a ++ b) = spawnedUnits a ++ spawnedUnits b := by
  induction a with
  | nil => rfl
  | cons e es ih =>
    cases e <;> simp [spawnedUnits, ih]
    case fork q r ret st sp => by_cases h : 0 < ret <;> simp [h]

theorem producerRanges_append (a b : List Event) :
    producerRanges (a ++ b) = producerRanges a ++ producerRanges b := by
  induction a with
  | nil => rfl
  | cons e es ih =>
    cases e <;> simp [producerRanges, ih]
    case fork q r ret st sp =>
      cases r <;> simp [producerRanges, ih]
      by_cases h : 0 < ret <;> simp [h]

/-- An iteration in which both `fork` calls return a pid. -/
theorem pairIteration_spawned (env : Env) (span : Int) (p : Nat) (start : Int)
    (hp : 0 < env.forkProd p) (hc : 0 < env.forkCons p) :
    pairIteration env span p start =
      if env.pipeRet p = -1 then ⟨[Event.pipe p (env.pipeRet p)], [], start, none⟩
      else ⟨[Event.pipe p (env.pipeRet p),
          Event.fork p Role.producer (env.forkProd p) start span,
          Event.fork p Role.consumer (env.forkCons p) start span,
          Event.close p PipeEnd.rd, Event.close p PipeEnd.wr],
        [env.forkProd p, env.forkCons p], wrapInt (start + span), none⟩ := by
  unfold pairIteration
  by_cases h : env.pipeRet p = -1
  · simp [h]
  · have h1 : ¬ env.forkProd p < 0 := by omega
    have h2 : ¬ env.forkProd p = 0 := by omega
    have h3 : ¬ env.forkCons p < 0 := by omega
    have h4 : ¬ env.forkCons p = 0 := by omega
    simp [h, h1, h2, h3, h4]

/-- No iteration waits or prints a status line. -/
theorem pairIteration_no_waits (env : Env) (span : Int) (p : Nat) (start : Int) :
    waitedPids (pairIteration env span p start).log = [] ∧
    reportsOf (pairIteration env span p start).log = [] := by
  simp only [pairIteration]
  split_ifs <;> simp [waitedPids, reportsOf]

theorem pairsLoop_no_waits (env : Env) (span : Int) :
    ∀ (n p : Nat) (start : Int),
      waitedPids (pairsLoop env span n p start).1 = [] ∧
      reportsOf (pairsLoop env span n p start).1 = [] := by
  intro n
  induction n with
  | zero => intro p start; simp [pairsLoop, waitedPids, reportsOf]
  | succ n ih =>
    intro p start
    have hit := pairIteration_no_waits env span p start
    unfold pairsLoop
    cases hch : (pairIteration env span p start).child with
    | some r => simpa [hch] using hit
    | none =>
      have hrest := ih (p + 1) (pairIteration env span p start).start
      simp [hch, waitedPids_append, reportsOf_append, hit, hrest]

/-- The wait loop calls `waitpid` on each stored pid in order, and prints a
status line for exactly the calls that returned a positive pid. -/
theorem waitLoop_facts (env : Env) :
    ∀ (children : List Int) (i : Nat),
      waitedPids (waitLoop env children i) = children ∧
      reportsOf (waitLoop env children i) =
        ((List.range' i children.length).filter (fun j => decide (0 < (env.waitRet j).1))).map
          (fun j => ((env.waitRet j).1, shownStatus env (env.waitRet j).2)) ∧
      spawnedPids (waitLoop env children i) = [] ∧
      spawnedUnits (waitLoop env children i) = [] ∧
      pipeCalls (waitLoop env children i) = [] ∧
      producerRanges (waitLoop env children i) = [] ∧
      ∀ q e, (waitLoop env children i).count (Event.close q e) = 0 := by
  intro children
  induction children with
  | nil =>
    intro i
    simp [waitLoop, waitedPids, reportsOf, spawnedPids, spawnedUnits, pipeCalls, producerRanges]
  | cons pid rest ih =>
    intro i
    obtain ⟨h1, h2, h3, h4, h5, h6, h7⟩ := ih (i + 1)
    simp only [waitLoop, waitedPids_append, reportsOf_append, spawnedPids_append,
      spawnedUnits_append, pipeCalls_append, producerRanges_append, List.count_append, h1, h2,
      h3, h4, h5, h6, h7, List.length_cons, List.range'_succ, List.filter_cons]
    by_cases hw : 0 < (env.waitRet i).1 <;>
      simp [waitAndReport, hw, waitedPids, reportsOf, spawnedPids, spawnedUnits, pipeCalls,
        producerRanges]

/-- With every `fork` returning a pid, the pair loop runs to its end in the
calling process; it attempts every pair, and the pairs it spawns are exactly
those whose `pipe` call succeeded, producer first. -/
theorem pairsLoop_spawned (env : Env) (span : Int)
    (hf : ∀ p, 0 < env.forkProd p ∧ 0 < env.forkCons p) :
    ∀ (n p : Nat) (start : Int),
      (pairsLoop env span n p start).2.2 = none ∧
      (pairsLoop env span n p start).2.1 =
        (((List.range' p n).filter (fun q => decide (env.pipeRet q ≠ -1))).map
          (fun q => [env.forkProd q, env.forkCons q])).flatten ∧
      spawnedPids (pairsLoop env span n p start).1 = (pairsLoop env span n p start).2.1 ∧
      spawnedUnits (pairsLoop env span n p start).1 =
        (((List.range' p n).filter (fun q => decide (env.pipeRet q ≠ -1))).map
          (fun q => [(q, Role.producer), (q, Role.consumer)])).flatten ∧
      pipeCalls (pairsLoop env span n p start).1 = List.range' p n := by
  intro n
  induction n with
  | zero => intro p start; simp [pairsLoop, spawnedPids, spawnedUnits, pipeCalls]
  | succ n ih =>
    intro p start
    have hit := pairIteration_spawned env span p start (hf p).1 (hf p).2
    have hp := (hf p).1
    have hc := (hf p).2
    by_cases hpipe : env.pipeRet p = -1
    · rw [if_pos hpipe] at hit
      obtain ⟨h1, h2, h3, h4, h5⟩ := ih (p + 1) start
      simp only [pairsLoop, hit, List.range'_succ, List.filter_cons, hpipe]
      simp [h1, h2, h3, h4, h5, spawnedPids, spawnedUnits, pipeCalls]
    · rw [if_neg hpipe] at hit
      obtain ⟨h1, h2, h3, h4, h5⟩ := ih (p + 1) (wrapInt (start + span))
      simp only [pairsLoop, hit, List.range'_succ, List.filter_cons, hpipe]
      simp [h1, h2, h3, h4, h5, spawnedPids, spawnedUnits, pipeCalls, hp, hc, hpipe]

theorem run_multiple_pairs_supervisor (env : Env) (pairs : Nat) (span : Int)
    (h : (pairsLoop env span pairs 0 1).2.2 = none) :
    run_multiple_pairs env pairs span =
      ⟨(pairsLoop env span pairs 0 1).1 ++ waitLoop env (pairsLoop env span pairs 0 1).2.1 0,
        none⟩ := by
  unfold run_multiple_pairs
  rcases hl : pairsLoop env span pairs 0 1 with ⟨log, children, child⟩
  rw [hl] at h
  simp only at h
  subst h
  rfl

theorem run_multiple_pairs_child (env : Env) (pairs : Nat) (span : Int) (r : Role)
    (h : (pairsLoop env span pairs 0 1).2.2 = some r) :
    run_multiple_pairs env pairs span = ⟨(pairsLoop env span pairs 0 1).1, some r⟩ := by
  unfold run_multiple_pairs
  rcases hl : pairsLoop env span pairs 0 1 with ⟨log, children, child⟩
  rw [hl] at h
  simp only at h
  subst h
  rfl

/-- The status lines of `run_multiple_pairs` on every path. -/
theorem run_multiple_pairs_reports (env : Env) (pairs : Nat) (span : Int) :
    reportsOf (run_multiple_pairs env pairs span).log =
      expectedReports env (waitedPids (run_multiple_pairs env pairs span).log).length := by
  have hnw := pairsLoop_no_waits env span pairs 0 1
  cases hch : (pairsLoop env span pairs 0 1).2.2 with
  | some r =>
    rw [run_multiple_pairs_child env pairs span r hch]
    simp [hnw, expectedReports]
  | none =>
    rw [run_multiple_pairs_supervisor env pairs span hch]
    have hw := waitLoop_facts env (pairsLoop env span pairs 0 1).2.1 0
    simp only [reportsOf_append, waitedPids_append, hnw.1, hnw.2, hw.1, hw.2.1,
      List.nil_append, expectedReports, List.range_eq_range']

/-- The status lines of `run_basic_demo` on every path. -/
theorem run_basic_demo_reports (env : Env) :
    reportsOf (run_basic_demo env).log =
      expectedReports env (waitedPids (run_basic_demo env).log).length := by
  simp only [run_basic_demo]
  split_ifs <;> simp [waitedPids, reportsOf, expectedReports, waitedPids_append, reportsOf_append]
  by_cases h0 : 0 < (env.waitRet 0).1 <;> by_cases h1 : 0 < (env.waitRet 1).1 <;>
    simp [waitAndReport, h0, h1, waitedPids, reportsOf, List.range_succ, List.filter_cons]

/-- On the success path the ranges handed to the producers follow
`start = 1 + p * span`. -/
theorem pairsLoop_ranges (env : Env) (span : Int) (hpipe : ∀ p, env.pipeRet p ≠ -1)
    (hf : ∀ p, 0 < env.forkProd p ∧ 0 < env.forkCons p) :
    ∀ (n p : Nat) (start : Int), start = 1 + (p : Int) * span →
      (∀ i : Nat, p < i → i ≤ p + n → InIntRange (1 + (i : Int) * span)) →
      producerRanges (pairsLoop env span n p start).1 =
        (List.range' p n).map
          (fun i : Nat => (i, 1 + (i : Int) * span, 1 + ((i : Int) + 1) * span)) := by
  intro n
  induction n with
  | zero => intro p start _ _; simp [pairsLoop, producerRanges]
  | succ n ih =>
    intro p start hs hr
    have hit := pairIteration_spawned env span p start (hf p).1 (hf p).2
    rw [if_neg (hpipe p)] at hit
    have hnext : wrapInt (start + span) = 1 + ((p + 1 : Nat) : Int) * span := by
      have := wrapInt_of_inRange _ (hr (p + 1) (by omega) (by omega))
      rw [← this, hs]
      congr 1
      push_cast
      ring
    have hrec := ih (p + 1) (wrapInt (start + span)) hnext
      (fun i h1 h2 => hr i (by omega) (by omega))
    have hp := (hf p).1
    simp only [pairsLoop, hit, List.range'_succ, List.map_cons, producerRanges_append, hrec]
    simp only [producerRanges, hp, if_true, List.cons_append, List.nil_append, hnext]
    rw [hs]
    congr 3

/-- An iteration does not close the pipe of another pair, nor the pipe of its
own pair when `pipe` failed. -/
theorem pairIteration_no_close (env : Env) (span : Int) (q : Nat) (start : Int) (p : Nat)
    (e : PipeEnd) (h : q ≠ p ∨ env.pipeRet q = -1) :
    (pairIteration env span q start).log.count (Event.close p e) = 0 := by
  rcases h with h | h
  · simp only [pairIteration]
    split_ifs <;> simp [List.count_cons, h]
  · simp [pairIteration, h, List.count_cons]

/-- An iteration of pair `q ≤ p` contains no event that ends the set-up of pair
`p`. -/
theorem pairIteration_no_end (env : Env) (span : Int) (q : Nat) (start : Int) (p : Nat)
    (h : q ≤ p) :
    ∀ ev ∈ (pairIteration env span q start).log, (!endsPair p ev) = true := by
  have hq : ¬ p < q := by omega
  simp only [pairIteration]
  split_ifs <;> simp [endsPair, hq]

/-- In the supervisor, an iteration whose `pipe` call succeeded closes each end
of its pipe exactly once. -/
theorem pairIteration_closes (env : Env) (span : Int) (p : Nat) (start : Int) (e : PipeEnd)
    (hpipe : env.pipeRet p ≠ -1) (hprod : env.forkProd p ≠ 0) (hcons : env.forkCons p ≠ 0) :
    (pairIteration env span p start).log.count (Event.close p e) = 1 := by
  simp only [pairIteration]
  cases e <;> split_ifs <;> simp_all [List.count_cons]

theorem pairIteration_supervisor (env : Env) (span : Int) (p : Nat) (start : Int)
    (hprod : env.forkProd p ≠ 0) (hcons : env.forkCons p ≠ 0) :
    (pairIteration env span p start).child = none := by
  simp only [pairIteration]
  split_ifs <;> simp_all

theorem pairsLoop_supervisor (env : Env) (span : Int) (hprod : ∀ q, env.forkProd q ≠ 0)
    (hcons : ∀ q, env.forkCons q ≠ 0) :
    ∀ (n q : Nat) (start : Int), (pairsLoop env span n q start).2.2 = none := by
  intro n
  induction n with
  | zero => intro q start; rfl
  | succ n ih =>
    intro q start
    have hch := pairIteration_supervisor env span q start (hprod q) (hcons q)
    simp only [pairsLoop, hch]
    exact ih _ _

theorem pairsLoop_step (env : Env) (span : Int) (n q : Nat) (start : Int)
    (hch : (pairIteration env span q start).child = none) :
    (pairsLoop env span (n + 1) q start).1 =
      (pairIteration env span q start).log ++
        (pairsLoop env span n (q + 1) (pairIteration env span q start).start).1 := by
  simp only [pairsLoop, hch]

/-- Iterations of later pairs, and iterations whose `pipe` call failed, leave the
pipe of pair `p` alone. -/
theorem pairsLoop_no_close (env : Env) (span : Int) (hprod : ∀ q, env.forkProd q ≠ 0)
    (hcons : ∀ q, env.forkCons q ≠ 0) (p : Nat) (e : PipeEnd) :
    ∀ (n q : Nat) (start : Int), p < q ∨ env.pipeRet p = -1 →
      (pairsLoop env span n q start).1.count (Event.close p e) = 0 := by
  intro n
  induction n with
  | zero => intro q start _; simp [pairsLoop]
  | succ n ih =>
    intro q start h
    have hch := pairIteration_supervisor env span q start (hprod q) (hcons q)
    have hit : (pairIteration env span q start).log.count (Event.close p e) = 0 := by
      apply pairIteration_no_close
      by_cases hqp : q = p
      · subst hqp
        rcases h with h | h
        · omega
        · exact Or.inr h
      · exact Or.inl hqp
    have hrest := ih (q + 1) (pairIteration env span q start).start
      (h.imp (fun h => by omega) id)
    rw [pairsLoop_step env span n q start hch, List.count_append, hit, hrest]

theorem count_takeWhile_zero (f : Event → Bool) (a : Event) (l : List Event)
    (h : l.count a = 0) : (l.takeWhile f).count a = 0 := by
  have := (List.takeWhile_sublist f (l := l)).count_le a
  omega

/-- The loop from pair `q ≤ p` on, followed by events `t` that do not close
the pipe of pair `p`, closes each end of that pipe exactly once, before the
set-up of pair `p` ends. -/
theorem pairsLoop_closed_once (env : Env) (span : Int) (hprod : ∀ q, env.forkProd q ≠ 0)
    (hcons : ∀ q, env.forkCons q ≠ 0) (p : Nat) (e : PipeEnd) (hpipe : env.pipeRet p ≠ -1)
    (t : List Event) (ht : t.count (Event.close p e) = 0) :
    ∀ (n q : Nat) (start : Int), q ≤ p → p < q + n →
      ClosedOnceBefore p e ((pairsLoop env span n q start).1 ++ t) := by
  intro n
  induction n with
  | zero => intro q start h1 h2; omega
  | succ n ih =>
    intro q start h1 h2
    have hch := pairIteration_supervisor env span q start (hprod q) (hcons q)
    have hne := pairIteration_no_end env span q start p h1
    rw [pairsLoop_step env span n q start hch, List.append_assoc]
    unfold ClosedOnceBefore
    rw [List.takeWhile_append_of_pos hne,
      List.count_append (Event.close p e) (pairIteration env span q start).log,
      List.count_append (Event.close p e) (pairIteration env span q start).log]
    by_cases hqp : q = p
    · subst hqp
      have hit := pairIteration_closes env span q start e hpipe (hprod q) (hcons q)
      have hrest := pairsLoop_no_close env span hprod hcons q e n (q + 1)
        (pairIteration env span q start).start (Or.inl (by omega))
      have hz : ((pairsLoop env span n (q + 1) (pairIteration env span q start).start).1
          ++ t).count (Event.close q e) = 0 := by
        rw [List.count_append, hrest, ht]
      rw [hit, hz, count_takeWhile_zero _ _ _ hz]
      exact ⟨rfl, rfl⟩
    · have hit := pairIteration_no_close env span q start p e (Or.inl hqp)
      have hrec := ih (q + 1) (pairIteration env span q start).start (by omega) (by omega)
      unfold ClosedOnceBefore at hrec
      rw [hit, hrec.1, hrec.2]
      exact ⟨rfl, rfl⟩

theorem sentValues_complete (q : Nat) (vs : List Int) :
    sentValues (Event.close q PipeEnd.rd :: sendRounds vs ++
      [Event.close q PipeEnd.wr, Event.exit 0]) = vs := by
  simp [sentValues, sentValues_append, sentValues_rounds]

theorem exitCodes_complete (q : Nat) (vs : List Int) :
    exitCodes (Event.close q PipeEnd.rd :: sendRounds vs ++
      [Event.close q PipeEnd.wr, Event.exit 0]) = [0] := by
  simp [exitCodes, exitCodes_append, exitCodes_rounds]

/-! ## Claims on one pair over its pipe -/

/-- C3: for every sequence `xs` of `int` values that the producer passes to
`write_int` before it closes the write end, and under every schedule of the two
children, the values the consumer has obtained so far from successful
`read_int` calls are an initial segment of `xs`, and once the consumer has left
its loop they are exactly `xs`: same values, same order, nothing twice, nothing
lost; the values it prints are the same sequence.  With room for one message in
the pipe there is a schedule under which the consumer does leave its loop. -/
theorem pipe_delivers_in_order_exactly_once (cap : Nat) (basic : Bool) (p : Nat)
    (xs : List Int) (hx : ∀ x ∈ xs, InIntRange x) :
    (∀ sched, ∃ rest,
      readValues (runPair cap basic p sched (pairInit p xs)).cons.log ++ rest = xs) ∧
    (∀ sched, (runPair cap basic p sched (pairInit p xs)).cons.exit ≠ none →
      readValues (runPair cap basic p sched (pairInit p xs)).cons.log = xs ∧
      receivedValues (runPair cap basic p sched (pairInit p xs)).cons.log = xs) ∧
    (4 ≤ cap → ∃ sched, (runPair cap basic p sched (pairInit p xs)).cons.exit = some 0) := by
  refine ⟨?_, ?_, ?_⟩
  · intro sched
    obtain ⟨mid, h1, hrd, _⟩ := pairInv_runPair cap basic p xs hx sched _ (pairInv_init p xs)
    exact ⟨mid ++ (runPair cap basic p sched (pairInit p xs)).pending, by
      rw [hrd, ← List.append_assoc]; exact h1⟩
  · intro sched he
    obtain ⟨mid, h1, hrd, _, _, _, h5⟩ :=
      pairInv_runPair cap basic p xs hx sched _ (pairInv_init p xs)
    obtain ⟨hm, hp, _, _⟩ := h5 he
    rw [hm, hp] at h1
    have hrecv : receivedValues (runPair cap basic p sched (pairInit p xs)).cons.log = xs := by
      simpa using h1
    exact ⟨by rw [hrd, hrecv], hrecv⟩
  · intro hcap
    exact ⟨alternate (xs.length + 1), alternate_terminates cap basic p hcap xs (consumerInit p) rfl⟩

/-- Witness of C3: the values 3, -1, 7 over a pipe with room for two messages,
the producer running first. -/
theorem pipe_delivers_in_order_exactly_once_witness :
    readValues (runPair 8 false 0
      [Role.producer, Role.producer, Role.producer, Role.consumer, Role.producer,
        Role.consumer, Role.consumer, Role.producer, Role.consumer]
      (pairInit 0 [3, -1, 7])).cons.log = [3, -1, 7] := by
  exact ((pipe_delivers_in_order_exactly_once 8 false 0 [3, -1, 7] (by decide)).2.1 _
    (by decide)).1

/-- C1: let the producer loop of `run_multiple_pairs` run on the range
`[lo, lo + span)` with every `write` complete, where `lo` and `lo + span` are
`int` values and no partial sum of the range leaves the range of `int`.  Then
the producer sends exactly `lo, ..., lo + span - 1` and exits with code 0, and
a consumer that reads these values from the pipe has, whenever it has left its
loop, the sum of the integers in `[lo, lo + span)` as its final sum, which it
prints; with room for one message in the pipe it does leave its loop under
some schedule.  The producer of `run_basic_demo` sends `1, ..., 5` and the sum
its consumer ends with is 15. -/
theorem consumer_sums_the_range (cap : Nat) (basic : Bool) (p : Nat) (lo : Int) (span : Nat)
    (hlo : InIntRange lo) (hhi : InIntRange (lo + (span : Int)))
    (hsum : ∀ k, k ≤ span → InIntRange (intRange lo k).sum) :
    (∃ log, producer_multi p lo (span : Int) (fun _ => sizeofInt) = some log ∧
      sentValues log = intRange lo span ∧ exitCodes log = [0] ∧
      (∀ sched, (runPair cap basic p sched (pairInit p (sentValues log))).cons.exit ≠ none →
        (runPair cap basic p sched (pairInit p (sentValues log))).cons.sum =
          (intRange lo span).sum ∧
        Event.finalLine (intRange lo span).sum ∈
          (runPair cap basic p sched (pairInit p (sentValues log))).cons.log) ∧
      (4 ≤ cap → ∃ sched,
        (runPair cap basic p sched (pairInit p (sentValues log))).cons.exit = some 0)) ∧
    (∃ log, producer_basic (fun _ => sizeofInt) = some log ∧
      sentValues log = intRange 1 5 ∧ exitCodes log = [0] ∧
      (∀ sched, (runPair cap true 0 sched (pairInit 0 (sentValues log))).cons.exit ≠ none →
        (runPair cap true 0 sched (pairInit 0 (sentValues log))).cons.sum = 15) ∧
      (4 ≤ cap → ∃ sched,
        (runPair cap true 0 sched (pairInit 0 (sentValues log))).cons.exit = some 0)) := by
  have hfinal : ∀ (b : Bool) (q : Nat) (xs : List Int), (∀ x ∈ xs, InIntRange x) →
      InIntRange xs.sum → ∀ sched,
      (runPair cap b q sched (pairInit q xs)).cons.exit ≠ none →
        (runPair cap b q sched (pairInit q xs)).cons.sum = xs.sum ∧
        Event.finalLine xs.sum ∈ (runPair cap b q sched (pairInit q xs)).cons.log := by
    intro b q xs hxs hs sched he
    obtain ⟨mid, h1, _, _, h3, _, h5⟩ :=
      pairInv_runPair cap b q xs hxs sched _ (pairInv_init q xs)
    obtain ⟨hm, hp, _, hfl⟩ := h5 he
    rw [hm, hp] at h1
    have hrecv : receivedValues (runPair cap b q sched (pairInit q xs)).cons.log = xs := by
      simpa using h1
    have hsumeq : (runPair cap b q sched (pairInit q xs)).cons.sum = xs.sum := by
      rw [h3, hrecv]
      exact wrapInt_of_inRange _ hs
    refine ⟨hsumeq, ?_⟩
    rw [← hsumeq]
    exact hfl
  constructor
  · have hwrap : wrapInt (lo + (span : Int)) = lo + (span : Int) := wrapInt_of_inRange _ hhi
    have hloop := sendLoop_ok (fun i => decide (i < lo + (span : Int))) (fun _ => sizeofInt) span
      ((lo + (span : Int) - lo).toNat + 1) lo 0 (by omega)
      (fun j hj => by
        have : (j : Int) < (span : Int) := by exact_mod_cast hj
        simp only [decide_eq_true_eq]; omega)
      (by simp) (fun _ _ => rfl)
    have hrange : ∀ x ∈ intRange lo span, InIntRange x := by
      intro x hxm
      unfold intRange at hxm
      simp only [List.mem_map, List.mem_range] at hxm
      obtain ⟨j, hj, rfl⟩ := hxm
      have : (j : Int) < (span : Int) := by exact_mod_cast hj
      unfold InIntRange INT_MIN INT_MAX at *
      omega
    have hsent := sentValues_complete p (intRange lo span)
    refine ⟨_, ?_, hsent, exitCodes_complete p (intRange lo span), ?_, ?_⟩
    · simp only [producer_multi, hwrap, hloop]
    · rw [hsent]
      exact hfinal basic p _ hrange (hsum span (le_refl _))
    · rw [hsent]
      intro hcap
      exact ⟨_, alternate_terminates cap basic p hcap (intRange lo span) (consumerInit p) rfl⟩
  · have hloop := sendLoop_ok (fun i => decide (i ≤ 5)) (fun _ => sizeofInt) 5 6 1 0 (by omega)
      (fun j hj => by
        have : (j : Int) < 5 := by exact_mod_cast hj
        simp only [decide_eq_true_eq]; omega)
      (by decide) (fun _ _ => rfl)
    have hsent := sentValues_complete 0 (intRange 1 5)
    refine ⟨_, ?_, hsent, exitCodes_complete 0 (intRange 1 5), ?_, ?_⟩
    · simp only [producer_basic, hloop]
    · rw [hsent]
      intro sched he
      exact (hfinal true 0 (intRange 1 5) (by decide) (by decide) sched he).1
    · rw [hsent]
      intro hcap
      exact ⟨_, alternate_terminates cap true 0 hcap (intRange 1 5) (consumerInit 0) rfl⟩

/-- Witness of C1: the second pair of the source, `lo = 6` and `span = 5`, whose
producer sends 6, ..., 10, the sum being 40. -/
theorem consumer_sums_the_range_witness :
    ∃ log, producer_multi 1 6 5 (fun _ => sizeofInt) = some log ∧
      sentValues log = [6, 7, 8, 9, 10] ∧
      (runPair 4 false 1 (alternate 6) (pairInit 1 (sentValues log))).cons.sum = 40 := by
  obtain ⟨log, h1, h2, _, h4, _⟩ := (consumer_sums_the_range 4 false 1 6 5 (by decide) (by decide)
    (by
      intro k hk
      interval_cases k <;> decide)).1
  refine ⟨log, h1, h2, ?_⟩
  have h := (h4 (alternate 6) (by rw [h2]; decide)).1
  rw [h]
  decide

/-! ## Claims on the supervisor -/

/-- C4: on the success path (no `pipe` call returns -1 and every `fork` returns
a pid) both run functions finish in the calling process and the pids passed to
`waitpid` are, in the same order, the pids returned by `fork`: producer then
consumer for `run_basic_demo`, and producer then consumer pair by pair for
`run_multiple_pairs`.  Each spawned pid is therefore waited on as often as it
was spawned, and `2 * pairs` waits are made. -/
theorem waits_match_spawns (env : Env) (pairs : Nat) (span : Int)
    (hpipe : ∀ p, env.pipeRet p ≠ -1)
    (hf : ∀ p, 0 < env.forkProd p ∧ 0 < env.forkCons p) :
    ((run_basic_demo env).child = none ∧
      spawnedPids (run_basic_demo env).log = [env.forkProd 0, env.forkCons 0] ∧
      waitedPids (run_basic_demo env).log = spawnedPids (run_basic_demo env).log) ∧
    ((run_multiple_pairs env pairs span).child = none ∧
      spawnedPids (run_multiple_pairs env pairs span).log =
        ((List.range pairs).map (fun q => [env.forkProd q, env.forkCons q])).flatten ∧
      waitedPids (run_multiple_pairs env pairs span).log =
        spawnedPids (run_multiple_pairs env pairs span).log ∧
      (waitedPids (run_multiple_pairs env pairs span).log).length = 2 * pairs ∧
      ∀ pid, (waitedPids (run_multiple_pairs env pairs span).log).count pid =
        (spawnedPids (run_multiple_pairs env pairs span).log).count pid) := by
  constructor
  · have hp := (hf 0).1
    have hc := (hf 0).2
    have h1 : ¬ env.forkProd 0 < 0 := by omega
    have h2 : ¬ env.forkProd 0 = 0 := by omega
    have h3 : ¬ env.forkCons 0 < 0 := by omega
    have h4 : ¬ env.forkCons 0 = 0 := by omega
    simp only [run_basic_demo, hpipe 0, h1, h2, h3, h4, if_false]
    refine ⟨trivial, ?_, ?_⟩
    · by_cases h0 : 0 < (env.waitRet 0).1 <;> by_cases h1 : 0 < (env.waitRet 1).1 <;>
        simp [waitAndReport, h0, h1, spawnedPids, hp, hc]
    · by_cases h0 : 0 < (env.waitRet 0).1 <;> by_cases h1 : 0 < (env.waitRet 1).1 <;>
        simp [waitAndReport, h0, h1, spawnedPids, waitedPids, hp, hc]
  · obtain ⟨h1, h2, h3, _, _⟩ := pairsLoop_spawned env span hf pairs 0 1
    have hnw := pairsLoop_no_waits env span pairs 0 1
    have hw := waitLoop_facts env (pairsLoop env span pairs 0 1).2.1 0
    have hall : (List.range' 0 pairs).filter (fun q => decide (env.pipeRet q ≠ -1)) =
        List.range pairs := by
      rw [← List.range_eq_range', List.filter_eq_self]
      intro q _
      simpa using hpipe q
    rw [hall] at h2
    rw [run_multiple_pairs_supervisor env pairs span h1]
    have hsp : spawnedPids ((pairsLoop env span pairs 0 1).1 ++
        waitLoop env (pairsLoop env span pairs 0 1).2.1 0) =
        ((List.range pairs).map (fun q => [env.forkProd q, env.forkCons q])).flatten := by
      rw [spawnedPids_append, hw.2.2.1, List.append_nil, h3, h2]
    have hwt : waitedPids ((pairsLoop env span pairs 0 1).1 ++
        waitLoop env (pairsLoop env span pairs 0 1).2.1 0) =
        ((List.range pairs).map (fun q => [env.forkProd q, env.forkCons q])).flatten := by
      rw [waitedPids_append, hnw.1, hw.1, List.nil_append, h2]
    refine ⟨rfl, hsp, by rw [hwt, hsp], ?_, fun pid => by rw [hwt, hsp]⟩
    rw [hwt, List.length_flatten]
    simp [Function.comp_def, Nat.mul_comm]

/-- Witness of C4: the run in which every call succeeds, with two pairs. -/
theorem waits_match_spawns_witness :
    waitedPids (run_multiple_pairs okEnv 2 5).log = [100, 101, 102, 103] ∧
    waitedPids (run_basic_demo okEnv).log = [100, 101] := by
  have h := waits_match_spawns okEnv 2 5 (by intro p; simp [okEnv, glibcEnv])
    (by
      intro p
      simp only [okEnv, glibcEnv]
      omega)
  refine ⟨?_, ?_⟩
  · rw [h.2.2.2.1, h.2.2.1]
    decide
  · rw [h.1.2.2, h.1.2.1]
    decide

/-- C5: when every `fork` returns a pid, whatever `pipe` calls fail, the loop
of `run_multiple_pairs` attempts every pair (one `pipe` call per pair, in
order), spawns a producer and a consumer for exactly the pairs whose `pipe`
call succeeded, and afterwards waits on exactly the two pids of each such pair
and on nothing else. -/
theorem failed_pipe_skips_only_that_pair (env : Env) (pairs : Nat) (span : Int)
    (hf : ∀ p, 0 < env.forkProd p ∧ 0 < env.forkCons p) :
    (run_multiple_pairs env pairs span).child = none ∧
    pipeCalls (run_multiple_pairs env pairs span).log = List.range pairs ∧
    spawnedUnits (run_multiple_pairs env pairs span).log =
      ((createdPairs env pairs).map
        (fun q => [(q, Role.producer), (q, Role.consumer)])).flatten ∧
    waitedPids (run_multiple_pairs env pairs span).log =
      ((createdPairs env pairs).map (fun q => [env.forkProd q, env.forkCons q])).flatten ∧
    (waitedPids (run_multiple_pairs env pairs span).log).length =
      2 * (createdPairs env pairs).length := by
  obtain ⟨h1, h2, _, h4, h5⟩ := pairsLoop_spawned env span hf pairs 0 1
  have hnw := pairsLoop_no_waits env span pairs 0 1
  have hw := waitLoop_facts env (pairsLoop env span pairs 0 1).2.1 0
  rw [← List.range_eq_range'] at h2 h4 h5
  rw [run_multiple_pairs_supervisor env pairs span h1]
  have hwt : waitedPids ((pairsLoop env span pairs 0 1).1 ++
      waitLoop env (pairsLoop env span pairs 0 1).2.1 0) =
      ((createdPairs env pairs).map (fun q => [env.forkProd q, env.forkCons q])).flatten := by
    rw [waitedPids_append, hnw.1, hw.1, List.nil_append, h2]
    rfl
  refine ⟨rfl, ?_, ?_, hwt, ?_⟩
  · rw [pipeCalls_append, hw.2.2.2.2.1, List.append_nil, h5]
  · rw [spawnedUnits_append, hw.2.2.2.1, List.append_nil, h4]
    rfl
  · rw [hwt, List.length_flatten]
    simp [Function.comp_def, Nat.mul_comm]

/-- Witness of C5: three pairs, `pipe` fails for the second one only; two pairs
run and four pids are reaped. -/
theorem failed_pipe_skips_only_that_pair_witness :
    createdPairs pipeFailEnv 3 = [0, 2] ∧
    waitedPids (run_multiple_pairs pipeFailEnv 3 5).log = [100, 101, 104, 105] ∧
    (waitedPids (run_multiple_pairs pipeFailEnv 3 5).log).length = 4 := by
  have h := failed_pipe_skips_only_that_pair pipeFailEnv 3 5
    (by
      intro p
      simp only [pipeFailEnv, glibcEnv]
      omega)
  have hc : createdPairs pipeFailEnv 3 = [0, 2] := by decide
  refine ⟨hc, ?_, ?_⟩
  · rw [h.2.2.2.1, hc]
    decide
  · rw [h.2.2.2.2, hc]
    rfl

/-- C9: provided `WEXITSTATUS` yields a value in `0..255`, the status a
supervisor prints for a status word is that exit code when `WIFEXITED` holds
and -1 otherwise, so it is -1 exactly when the unit did not exit normally.  In
both run functions, on every path, the status lines are exactly these values,
one for each `waitpid` call that returned a positive pid, in call order. -/
theorem reported_status_is_exit_code_or_sentinel (env : Env) (pairs : Nat) (span : Int)
    (hex : ∀ s, 0 ≤ env.wexitstatus s ∧ env.wexitstatus s ≤ 255) :
    (∀ status,
      (env.wifexited status = true →
        shownStatus env status = env.wexitstatus status ∧
        0 ≤ shownStatus env status ∧ shownStatus env status ≤ 255) ∧
      (env.wifexited status = false → shownStatus env status = -1) ∧
      (shownStatus env status = -1 ↔ env.wifexited status = false)) ∧
    reportsOf (run_basic_demo env).log =
      expectedReports env (waitedPids (run_basic_demo env).log).length ∧
    reportsOf (run_multiple_pairs env pairs span).log =
      expectedReports env (waitedPids (run_multiple_pairs env pairs span).log).length := by
  refine ⟨?_, run_basic_demo_reports env, run_multiple_pairs_reports env pairs span⟩
  intro status
  have h := hex status
  cases hw : env.wifexited status with
  | true =>
    have hs : shownStatus env status = env.wexitstatus status := by simp [shownStatus, hw]
    rw [hs]
    exact ⟨fun _ => ⟨rfl, h.1, h.2⟩, fun hc => absurd hc (by decide),
      fun he => by omega, fun hc => absurd hc (by decide)⟩
  | false =>
    simp [shownStatus, hw]

/-- Witness of C9: with the glibc macros, a producer that exits with code 1
(status word `0x0100`) is shown as 1 and a consumer killed by signal 13 (status
word 13) is shown as -1. -/
theorem reported_status_is_exit_code_or_sentinel_witness :
    reportsOf (run_basic_demo (glibcEnv (fun _ => 0) (fun _ => 100) (fun _ => 101)
      (fun i => if i = 0 then (100, 256) else (101, 13)))).log = [(100, 1), (101, -1)] := by
  have h := (reported_status_is_exit_code_or_sentinel (glibcEnv (fun _ => 0) (fun _ => 100)
    (fun _ => 101) (fun i => if i = 0 then (100, 256) else (101, 13))) 2 5
    (by
      intro s
      simp only [glibcEnv]
      omega)).2.1
  rw [h]
  decide

/-- C2: in a run of `run_multiple_pairs` in which no `pipe` call returns -1 and
every `fork` returns a pid, and in which no value of `start` leaves the range
of `int`, the producer of pair `i` gets the range `[1 + i * span,
1 + (i + 1) * span)`, and no integer lies in the ranges of two different
pairs. -/
theorem producer_ranges_on_success (env : Env) (pairs : Nat) (span : Int)
    (hpipe : ∀ p, env.pipeRet p ≠ -1)
    (hf : ∀ p, 0 < env.forkProd p ∧ 0 < env.forkCons p)
    (hrange : ∀ i : Nat, i ≤ pairs → InIntRange (1 + (i : Int) * span)) :
    producerRanges (run_multiple_pairs env pairs span).log =
      (List.range pairs).map
        (fun i : Nat => (i, 1 + (i : Int) * span, 1 + ((i : Int) + 1) * span)) ∧
    ∀ r1 ∈ producerRanges (run_multiple_pairs env pairs span).log,
      ∀ r2 ∈ producerRanges (run_multiple_pairs env pairs span).log, r1.1 ≠ r2.1 →
        ∀ x : Int, ¬ ((r1.2.1 ≤ x ∧ x < r1.2.2) ∧ (r2.2.1 ≤ x ∧ x < r2.2.2)) := by
  have hlog : producerRanges (run_multiple_pairs env pairs span).log =
      (List.range pairs).map
        (fun i : Nat => (i, 1 + (i : Int) * span, 1 + ((i : Int) + 1) * span)) := by
    obtain ⟨h1, _⟩ := pairsLoop_spawned env span hf pairs 0 1
    have hw := waitLoop_facts env (pairsLoop env span pairs 0 1).2.1 0
    have hr := pairsLoop_ranges env span hpipe hf pairs 0 1 (by simp)
      (fun i _ h2 => hrange i (by omega))
    rw [run_multiple_pairs_supervisor env pairs span h1]
    simp only [producerRanges_append, hw.2.2.2.2.2.1, List.append_nil, hr,
      List.range_eq_range']
  refine ⟨hlog, ?_⟩
  rw [hlog]
  intro r1 hr1 r2 hr2 hne x hx
  simp only [List.mem_map, List.mem_range] at hr1 hr2
  obtain ⟨i, _, rfl⟩ := hr1
  obtain ⟨j, _, rfl⟩ := hr2
  simp only [ne_eq] at hne hx
  obtain ⟨⟨a1, a2⟩, b1, b2⟩ := hx
  have hspan : 0 < span := by nlinarith
  rcases Nat.lt_or_gt_of_ne hne with hij | hij
  · have : ((i : Int) + 1) ≤ (j : Int) := by exact_mod_cast hij
    nlinarith
  · have : ((j : Int) + 1) ≤ (i : Int) := by exact_mod_cast hij
    nlinarith

/-- Witness of C2: two pairs of five values get `[1, 6)` and `[6, 11)`, whose
sums are 15 and 40. -/
theorem producer_ranges_on_success_witness :
    producerRanges (run_multiple_pairs okEnv 2 5).log = [(0, 1, 6), (1, 6, 11)] ∧
    (intRange 1 5).sum = 15 ∧ (intRange 6 5).sum = 40 := by
  have h := (producer_ranges_on_success okEnv 2 5 (by intro p; simp [okEnv, glibcEnv])
    (by
      intro p
      simp only [okEnv, glibcEnv]
      omega)
    (by
      intro i hi
      unfold InIntRange INT_MIN INT_MAX
      have : (i : Int) ≤ 2 := by exact_mod_cast hi
      omega)).1
  refine ⟨?_, by decide, by decide⟩
  rw [h]
  decide

/-- C6 on the code: when the consumer `fork` of the first of two pairs fails,
the producers of both pairs are spawned with the same range `[1, 6)`. -/
theorem consumer_fork_failure_repeats_range :
    producerRanges (run_multiple_pairs consForkFailEnv 2 5).log = [(0, 1, 6), (1, 1, 6)] ∧
    spawnedUnits (run_multiple_pairs consForkFailEnv 2 5).log =
      [(0, Role.producer), (1, Role.producer), (1, Role.consumer)] := by
  decide

/-- C10: in the supervisor (no `fork` returns 0) both run functions stay in the
calling process, and for every pair whose `pipe` call succeeded, whichever
`fork` calls fail, each end of the pair's pipe is closed exactly once in the
whole run, and that `close` comes before the first `waitpid` and before the
`pipe` call of any later pair.  The pipe of a pair whose `pipe` call failed is
never closed. -/
theorem supervisor_closes_each_end_once (env : Env) (pairs : Nat) (span : Int)
    (hprod : ∀ q, env.forkProd q ≠ 0) (hcons : ∀ q, env.forkCons q ≠ 0) :
    ((run_basic_demo env).child = none ∧ (run_multiple_pairs env pairs span).child = none) ∧
    (∀ e, env.pipeRet 0 ≠ -1 → ClosedOnceBefore 0 e (run_basic_demo env).log) ∧
    (∀ p e, p < pairs → env.pipeRet p ≠ -1 →
      ClosedOnceBefore p e (run_multiple_pairs env pairs span).log) ∧
    (∀ p e, env.pipeRet p = -1 →
      (run_multiple_pairs env pairs span).log.count (Event.close p e) = 0) := by
  have hsup := pairsLoop_supervisor env span hprod hcons pairs 0 1
  have hw := waitLoop_facts env (pairsLoop env span pairs 0 1).2.1 0
  have hp0 := hprod 0
  have hc0 := hcons 0
  refine ⟨⟨?_, ?_⟩, ?_, ?_, ?_⟩
  · simp only [run_basic_demo]
    split_ifs <;> simp_all
  · rw [run_multiple_pairs_supervisor env pairs span hsup]
  · intro e hpipe
    unfold ClosedOnceBefore
    simp only [run_basic_demo, hpipe, hp0, hc0, if_false]
    by_cases h0 : 0 < (env.waitRet 0).1 <;> by_cases h1 : 0 < (env.waitRet 1).1 <;>
      cases e <;> split_ifs <;>
      simp [waitAndReport, h0, h1, List.count_cons, endsPair, List.takeWhile_cons]
  · intro p e hp hpipe
    rw [run_multiple_pairs_supervisor env pairs span hsup]
    exact pairsLoop_closed_once env span hprod hcons p e hpipe _ (hw.2.2.2.2.2.2 p e) pairs 0 1
      (Nat.zero_le _) (by omega)
  · intro p e hpipe
    rw [run_multiple_pairs_supervisor env pairs span hsup, List.count_append,
      hw.2.2.2.2.2.2 p e, pairsLoop_no_close env span hprod hcons p e pairs 0 1 (Or.inr hpipe)]

/-- Witness of C10: the run of two pairs in which the consumer `fork` of the
first pair fails. -/
theorem supervisor_closes_each_end_once_witness :
    ClosedOnceBefore 0 PipeEnd.rd (run_multiple_pairs consForkFailEnv 2 5).log ∧
    ClosedOnceBefore 0 PipeEnd.wr (run_multiple_pairs consForkFailEnv 2 5).log := by
  have h := (supervisor_closes_each_end_once consForkFailEnv 2 5
    (by
      intro q
      simp only [consForkFailEnv, glibcEnv]
      omega)
    (by
      intro q
      simp only [consForkFailEnv, glibcEnv]
      split <;> omega)).2.2.1
  exact ⟨h 0 PipeEnd.rd (by decide) (by decide), h 0 PipeEnd.wr (by decide) (by decide)⟩

end ProcessManager
